import Mathlib

/-!
Verification of the Symbol & Inheritance Resolution Engine specification
for the clang_index_mcp repository.

The repository ships the engine's C++ test fixtures; the engine components
themselves (symbol table, alias resolver, template instantiation tracker,
inheritance graph builder, call-site extractor, documentation normalizer)
are modelled here from the specification document, shallowly embedded as
executable Lean definitions.  Test fixtures under tests/fixtures provide
the concrete inputs used in witnesses.
-/

/-- Modelled from the spec: type expressions appearing as template arguments,
specialization patterns and base specifiers (§3 TemplateDefinition, §4.3).
`named` is a concrete class or primitive name, `param` a template-parameter
occurrence, `ptr` a pointer wrapper (the shape used by patterns such as
`<T*, U>`). -/
inductive TypeExpr where
  | named : String → TypeExpr
  | param : String → TypeExpr
  | ptr : TypeExpr → TypeExpr
deriving DecidableEq, Repr

/-- A type expression is concrete when no template parameter occurs in it. -/
def TypeExpr.isConcrete : TypeExpr → Bool
  | .named _ => true
  | .param _ => false
  | .ptr t => t.isConcrete

/-- Modelled from the spec: template parameters of a primary template —
an ordinary (possibly defaulted) parameter or a trailing variadic pack
(§4.3 step 3). -/
inductive TParam where
  | plain : String → Option TypeExpr → TParam
  | pack : String → TParam
deriving DecidableEq, Repr

/-- Modelled from the spec: one entry of a base-specifier list — a single
base type expression or a parameter-pack expansion `Bases...` (§4.3,
fixture advanced_patterns.h `VariadicInherit`). -/
inductive BaseSpec where
  | single : TypeExpr → BaseSpec
  | packExpansion : String → BaseSpec
deriving DecidableEq, Repr

/-- Modelled from the spec: a specialization of a template — a pattern
(fully concrete = full specialization, parametrized = partial) and its own
independent base-specifier list, never merged with the primary's (§3). -/
structure TemplateSpec where
  pattern : List TypeExpr
  bases : List BaseSpec
deriving DecidableEq, Repr

/-- Modelled from the spec: a primary template plus its ordered set of
specializations (§3 TemplateDefinition). -/
structure TemplateDef where
  params : List TParam
  bases : List BaseSpec
  specs : List TemplateSpec
deriving DecidableEq, Repr

/-- Bind a template parameter to a concrete argument, consistently with
bindings already made (so pattern `<T,T>` only matches equal arguments). -/
def bindParam (σ : List (String × TypeExpr)) (x : String) (t : TypeExpr) :
    Option (List (String × TypeExpr)) :=
  match σ.lookup x with
  | some u => if u = t then some σ else none
  | none => some ((x, t) :: σ)

/-- Modelled from the spec: match one pattern position against one argument
(§4.3 step 2, "whose pattern unifies with argumentList").  A parameter in
the pattern binds the argument subtree; concrete structure must agree. -/
def matchOne : TypeExpr → TypeExpr → List (String × TypeExpr) →
    Option (List (String × TypeExpr))
  | .param x, t, σ => bindParam σ x t
  | .named n, .named m, σ => if n = m then some σ else none
  | .ptr p, .ptr t, σ => matchOne p t σ
  | _, _, _ => none

/-- Match a whole pattern list against an argument list. -/
def matchList : List TypeExpr → List TypeExpr → List (String × TypeExpr) →
    Option (List (String × TypeExpr))
  | [], [], σ => some σ
  | p :: ps, t :: ts, σ => (matchOne p t σ).bind (matchList ps ts)
  | _, _, _ => none

/-- A pattern unifies with an argument list when matching succeeds. -/
def unifies (pat args : List TypeExpr) : Bool :=
  (matchList pat args []).isSome

/-- A pattern is a full-specialization pattern when fully concrete. -/
def isFullPattern (pat : List TypeExpr) : Bool :=
  pat.all TypeExpr.isConcrete

/-- Modelled from the spec: pattern `p` is at least as specific as pattern
`q` when `q` unifies with `p` itself ("whose pattern is itself a
specialization of every other matching pattern", §4.3 step 2). -/
def atLeastAsSpecific (p q : List TypeExpr) : Bool :=
  unifies q p

/-- Substitute bound parameters into a type expression (§4.3: "the selected
definition's base-specifier list is substituted verbatim"). -/
def substType (σ : List (String × TypeExpr)) : TypeExpr → TypeExpr
  | .named n => .named n
  | .param x =>
    match σ.lookup x with
    | some t => t
    | none => .param x
  | .ptr t => .ptr (substType σ t)

/-- Substitute parameter and pack bindings into a base-specifier list; a
pack expansion contributes one base per bound pack argument, in order. -/
def substBases (σ : List (String × TypeExpr))
    (packs : List (String × List TypeExpr)) : List BaseSpec → List TypeExpr
  | [] => []
  | .single t :: bs => substType σ t :: substBases σ packs bs
  | .packExpansion p :: bs =>
    (match packs.lookup p with
     | some ts => ts
     | none => []) ++ substBases σ packs bs

/-- Modelled from the spec: positional binding of primary-template
parameters to arguments, using a parameter's default when the call site
omits trailing arguments, and binding a variadic pack to all remaining
(possibly zero) trailing arguments (§4.3 step 3). -/
def bindPrimary : List TParam → List TypeExpr →
    Option (List (String × TypeExpr) × List (String × List TypeExpr))
  | [], [] => some ([], [])
  | [], _ :: _ => none
  | .plain x _ :: ps, a :: as =>
    (bindPrimary ps as).map fun (σ, pk) => ((x, a) :: σ, pk)
  | .plain x (some d) :: ps, [] =>
    (bindPrimary ps []).map fun (σ, pk) => ((x, d) :: σ, pk)
  | .plain _ none :: _, [] => none
  | .pack p :: _, args => some ([], [(p, args)])

/-- Which definition of the template an instantiation selected. -/
inductive Selected where
  | primary : Selected
  | fromPart : TemplateSpec → Selected
  | fromFull : TemplateSpec → Selected
deriving DecidableEq, Repr

/-- Errors of the template instantiation tracker (§4.3, §7). -/
inductive InstError where
  | ambiguous : InstError
  | arityMismatch : InstError
deriving DecidableEq, Repr

/-- Modelled from the spec: an Instantiation — the selected
TemplateDefinition member and the base edges computed by substituting the
arguments into the selected definition's base list (§3 Instantiation). -/
structure Instantiation where
  selected : Selected
  baseEdges : List TypeExpr
deriving DecidableEq, Repr

/-- Find the full specialization whose pattern equals the argument list
exactly (§4.3 step 1). -/
def findFull (specs : List TemplateSpec) (args : List TypeExpr) :
    Option TemplateSpec :=
  specs.find? fun s => isFullPattern s.pattern && s.pattern = args

/-- The partial specializations whose pattern unifies with the argument
list (§4.3 step 2). -/
def matchingParts (specs : List TemplateSpec) (args : List TypeExpr) :
    List TemplateSpec :=
  specs.filter fun s => !isFullPattern s.pattern && unifies s.pattern args

/-- Among the matching candidates, the one at least as specific as every
other; `none` when no single candidate is most specific. -/
def selectMostSpecific (cands : List TemplateSpec) :
    Option TemplateSpec :=
  cands.find? fun c =>
    cands.all fun c2 => atLeastAsSpecific c.pattern c2.pattern

/-- Modelled from the spec: `instantiate(templateId, argumentList)` (§4.3).
Selection order: exact full specialization, else most specific unifying
partial specialization (`Ambiguous` when no single most specific match),
else the primary with positional substitution; the selected definition's
own base list is substituted to produce the base edges. -/
def instantiate (td : TemplateDef) (args : List TypeExpr) :
    Except InstError Instantiation :=
  match findFull td.specs args with
  | some s => .ok ⟨.fromFull s, substBases [] [] s.bases⟩
  | none =>
    match matchingParts td.specs args with
    | [] =>
      match bindPrimary td.params args with
      | some (σ, packs) => .ok ⟨.primary, substBases σ packs td.bases⟩
      | none => .error .arityMismatch
    | c :: cs =>
      match selectMostSpecific (c :: cs) with
      | some s =>
        match matchList s.pattern args [] with
        | some σ => .ok ⟨.fromPart s, substBases σ [] s.bases⟩
        | none => .error .arityMismatch
      | none => .error .ambiguous


/-- Modelled from the spec: an InheritanceEdge (§3): derived symbol,
base name, access specifier, virtual flag; `resolved = false` marks an
`Unresolved` edge (dependent, unresolved reference, or cycle), which is
excluded from every ancestry computation.  Edges are kept in declaration
order. -/
structure Edge where
  derived : String
  base : String
  access : String
  isVirtual : Bool
  resolved : Bool
deriving DecidableEq, Repr

/-- The resolved out-edges of a symbol, in declaration order. -/
def resolvedOut (g : List Edge) (s : String) : List Edge :=
  g.filter fun e => e.resolved && e.derived == s

/-- One resolved inheritance step from `a` to `b`. -/
def rstep (g : List Edge) (a b : String) : Bool :=
  g.any fun e => e.resolved && e.derived == a && e.base == b

/-- Bounded reachability over resolved edges (the visited-set DFS of §9,
modelled with fuel bounded by the graph size). -/
def reachableB (g : List Edge) : Nat → String → String → Bool
  | 0, _, _ => false
  | fuel+1, a, b =>
    (resolvedOut g a).any fun e => e.base == b || reachableB g fuel e.base b

/-- Modelled from the spec (§4.4): adding edge `d → b` would close a cycle
among the resolved edges when `b` is `d` or already reaches `d`. -/
def closesCycle (g : List Edge) (d b : String) : Bool :=
  b == d || reachableB g (g.length + 1) b d

/-- Modelled from the spec (§4.4 `addBase`): a cycle-closing edge is
appended marked `Unresolved(cycle)` and the rest of the graph is left
untouched; otherwise the edge is appended resolved. -/
def addBase (g : List Edge) (d b : String) (acc : String) (v : Bool) :
    List Edge :=
  if closesCycle g d b then g ++ [⟨d, b, acc, v, false⟩]
  else g ++ [⟨d, b, acc, v, true⟩]

/-- One `addBase` request, as emitted by `DeclareBase` events (§6). -/
structure BaseOp where
  derived : String
  base : String
  access : String
  isVirtual : Bool
deriving DecidableEq, Repr

/-- Apply a sequence of `addBase` operations starting from the empty
inheritance graph. -/
def applyOps (ops : List BaseOp) : List Edge :=
  ops.foldl (fun g op => addBase g op.derived op.base op.access op.isVirtual) []

/-- `chainB g a l b`: the node list `l` witnesses a nonempty resolved path
from `a` to `b` through the intermediate nodes `l` in order. -/
def chainB (g : List Edge) : String → List String → String → Bool
  | a, [], b => rstep g a b
  | a, c :: l, b => rstep g a c && chainB g c l b

/-- The graph restricted to resolved edges is acyclic: no nonempty
resolved path leads from a node back to itself (§3 InheritanceEdge
invariant). -/
def Acyclic (g : List Edge) : Prop :=
  ∀ (a : String) (l : List String), chainB g a l a = false

/-- Reflexive closure of resolved-path reachability. -/
def reachP (g : List Edge) (x y : String) : Prop :=
  x = y ∨ ∃ l, chainB g x l y = true

/-- One entry of an `ancestors()` result (§4.4): ancestor name, access,
virtual flag of the base-specifier naming it, and the ambiguous-access
flag set on a non-virtual base reached along two or more paths. -/
structure AncestorEntry where
  name : String
  access : String
  isVirtual : Bool
  ambiguousAccess : Bool
deriving DecidableEq, Repr

/-- All ancestor path entries of `s`: one `(name, access, virtual)` entry
per inheritance path over resolved edges, in declaration order. -/
def ancestorPaths (g : List Edge) : Nat → String → List (String × String × Bool)
  | 0, _ => []
  | fuel+1, s =>
    (resolvedOut g s).flatMap fun e =>
      (e.base, e.access, e.isVirtual) ::
        (ancestorPaths g fuel e.base).map fun q => (q.1, q.2.1, q.2.2)

/-- Deduplicate virtual bases: a virtual base keeps only its first entry,
however many paths reach it (§4.4). -/
def dedupVirtualBases (seen : List String) :
    List (String × String × Bool) → List (String × String × Bool)
  | [] => []
  | (n, a, v) :: rest =>
    if v then
      if seen.contains n then dedupVirtualBases seen rest
      else (n, a, v) :: dedupVirtualBases (n :: seen) rest
    else (n, a, v) :: dedupVirtualBases seen rest

/-- Modelled from the spec (§4.4 `ancestors`): entries from all
inheritance paths over resolved edges; a virtual base appears exactly once
regardless of how many paths reach it, while a non-virtual base reached
via two or more paths keeps one entry per path, each flagged
`ambiguousAccess = true`. -/
def ancestors (g : List Edge) (fuel : Nat) (s : String) : List AncestorEntry :=
  let raw := ancestorPaths g fuel s
  (dedupVirtualBases [] raw).map fun q =>
    ⟨q.1, q.2.1, q.2.2,
      !q.2.2 && decide (2 ≤ (raw.filter fun p => !p.2.2 && p.1 == q.1).length)⟩

/-- The engine-level query with fuel fixed at the graph size bound. -/
def ancestorsOf (g : List Edge) (s : String) : List AncestorEntry :=
  ancestors g (g.length + 1) s

/-- The diamond fixture shape (virtual_inheritance.h test cases 9 and 10):
`D : L, R` and `L, R : Top`, the two `Top` edges virtual or not. -/
def diamondGraph (d l r top : String) (virt : Bool) : List Edge :=
  [⟨d, l, "public", false, true⟩, ⟨d, r, "public", false, true⟩,
   ⟨l, top, "public", virt, true⟩, ⟨r, top, "public", virt, true⟩]

/-- Outcome of resolving an alias name (§4.2, §7). -/
inductive ResolvedTarget where
  | concrete : String → ResolvedTarget
  | unresolvedCyclic : ResolvedTarget
deriving DecidableEq, Repr

/-- Modelled from the spec (§4.2): repeatedly substitute an alias name for
its target until a non-alias is reached; revisiting a name already seen in
the current chain, or exceeding the chain-length bound, is a `CyclicAlias`
error and the resolution freezes at `Unresolved`. -/
def resolveAliasAux (defs : List (String × String)) :
    Nat → List String → String → ResolvedTarget
  | 0, _, _ => .unresolvedCyclic
  | fuel+1, seen, name =>
    if name ∈ seen then .unresolvedCyclic
    else
      match defs.lookup name with
      | none => .concrete name
      | some tgt => resolveAliasAux defs fuel (name :: seen) tgt

/-- Modelled from the spec (§4.2 `resolve`): the chain-length bound is the
number of alias definitions (no acyclic chain can be longer). -/
def resolveAlias (defs : List (String × String)) (name : String) :
    ResolvedTarget :=
  resolveAliasAux defs (defs.length + 1) [] name

/-- `isAliasChain defs chain t`: following each element's alias binding
walks `chain` in order and ends at `t`, which is not itself an alias. -/
def isAliasChain (defs : List (String × String)) :
    List String → String → Prop
  | [], t => defs.lookup t = none
  | a :: rest, t =>
    defs.lookup a = some (match rest with | [] => t | b :: _ => b) ∧
      isAliasChain defs rest t

/-- Modelled from the spec (§3 Symbol): the attributes of a Symbol the
lifecycle claims depend on — key (qualified name + kind), the
definition-vs-declaration flag, and the base list of its definition. -/
structure SymbolEntry where
  qualifiedName : String
  kind : String
  isDefinition : Bool
  bases : List String
deriving DecidableEq, Repr

/-- A `DeclareSymbol` event together with the base-specifier list carried
by a definition-bearing event (§6). -/
structure DeclEvent where
  qualifiedName : String
  kind : String
  isDefinition : Bool
  bases : List String
deriving DecidableEq, Repr

/-- Modelled from the spec (§3, §4.1): declaration events for an existing
qualified name + kind return the existing Symbol with is-definition OR'd
in; base edges come only from a definition-bearing event; otherwise a new
Symbol is appended to the arena (never destroyed). -/
def declare (arena : List SymbolEntry) (e : DeclEvent) : List SymbolEntry :=
  if arena.any fun s =>
      s.qualifiedName == e.qualifiedName && s.kind == e.kind then
    arena.map fun s =>
      if s.qualifiedName == e.qualifiedName && s.kind == e.kind then
        { s with
          isDefinition := s.isDefinition || e.isDefinition,
          bases := if e.isDefinition then e.bases else s.bases }
      else s
  else
    arena ++
      [⟨e.qualifiedName, e.kind, e.isDefinition,
        if e.isDefinition then e.bases else []⟩]

/-- Process a translation unit's declaration events in order. -/
def processDecls (arena : List SymbolEntry) (es : List DeclEvent) : List SymbolEntry :=
  es.foldl declare arena

/-- The callee of a CallSite (§3): a resolved function or
`IndirectUnresolved`. -/
inductive Callee where
  | func : String → Callee
  | indirectUnresolved : Callee
deriving DecidableEq, Repr

/-- Call kinds relevant to the function-pointer claims (§3 CallSite). -/
inductive CallKind where
  | direct : CallKind
  | throughFunctionPointer : CallKind
deriving DecidableEq, Repr

/-- A recorded CallSite (§3), caller and location elided (the claims are
per-body). -/
structure CallSite where
  callee : Callee
  kind : CallKind
deriving DecidableEq, Repr

/-- The statements of a function body the call-site claims mention:
assigning a function to a variable, invoking through a variable, and a
direct call. -/
inductive Stmt where
  | assignFunc : String → String → Stmt
  | callVar : String → Stmt
  | callDirect : String → Stmt
deriving DecidableEq, Repr

/-- Modelled from the spec (§4.5): only actual invocation syntax produces
a CallSite — an assignment records no CallSite and only extends the
statically-traceable environment; a call through a variable resolves to
the assigned function when traceable, else `IndirectUnresolved`; a direct
call resolves directly. -/
def extractCalls (env : List (String × String)) : List Stmt → List CallSite
  | [] => []
  | .assignFunc v f :: rest => extractCalls ((v, f) :: env) rest
  | .callVar v :: rest =>
    (match env.lookup v with
     | some f => CallSite.mk (.func f) .throughFunctionPointer
     | none => CallSite.mk .indirectUnresolved .throughFunctionPointer) ::
      extractCalls env rest
  | .callDirect f :: rest =>
    CallSite.mk (.func f) .direct :: extractCalls env rest

/-- Modelled from the spec (§4.6): the single configurable maximum length
of a normalized documentation text, default 4000. -/
def maxDocLength : Nat := 4000

/-- Modelled from the spec (§4.6): the ellipsis marker appended after
truncation. -/
def truncationMarker : List Char := ['.', '.', '.']

/-- Modelled from the spec (§4.6 `attach`): text at or under the limit is
stored verbatim with no marker; longer text is truncated exactly at the
limit and the marker appended. -/
def storeDoc (maxLen : Nat) (text : List Char) : List Char :=
  if text.length ≤ maxLen then text
  else text.take maxLen ++ truncationMarker

/-- Result of an unqualified name lookup (§4.1). -/
inductive LookupResult where
  | tparam : String → LookupResult
  | symbol : String → LookupResult
  | unresolved : LookupResult
deriving DecidableEq, Repr

/-- Walk the enclosing scope chain from innermost to outermost, returning
the first scope's binding of the name (§4.1). -/
def lookupScopes : List (List (String × String)) → String → LookupResult
  | [], _ => .unresolved
  | sc :: rest, name =>
    match sc.lookup name with
    | some sym => .symbol sym
    | none => lookupScopes rest name

/-- Modelled from the spec (§4.1): template parameter names are scoped to
the template body and shadow any identically-named symbol in an enclosing
scope; only then is the scope chain walked. -/
def lookupUnqualified (tparams : List String)
    (scopeChain : List (List (String × String))) (name : String) :
    LookupResult :=
  if tparams.contains name then .tparam name
  else lookupScopes scopeChain name

/-- Outcome of resolving a base-specifier name inside a template (§4.4
step (a)). -/
inductive BaseResolution where
  | resolvedTo : TypeExpr → BaseResolution
  | viaScope : LookupResult → BaseResolution
  | dependent : BaseResolution
deriving DecidableEq, Repr

/-- Modelled from the spec (§4.4 (a)): a base-specifier naming a template
parameter in scope is substituted with the argument bound to it in the
current instantiation context (`dependent` while unbound); any other name
goes through ordinary lookup. -/
def resolveBaseName (tparams : List String)
    (instCtx : List (String × TypeExpr))
    (scopeChain : List (List (String × String))) (name : String) :
    BaseResolution :=
  if tparams.contains name then
    match instCtx.lookup name with
    | some arg => .resolvedTo arg
    | none => .dependent
  else .viaScope (lookupScopes scopeChain name)

/-- Fixture specialization_inheritance.h test case 44: primary
`SpecExtraBases<T> : SpecBaseA` with a full specialization for `double`
adding `SpecBaseB`. -/
def specExtraBases : TemplateDef :=
  { params := [.plain "T" none]
  , bases := [.single (.named "SpecBaseA")]
  , specs :=
      [⟨[.named "double"],
        [.single (.named "SpecBaseA"), .single (.named "SpecBaseB")]⟩] }

/-- Fixture specialization_inheritance.h test case 45: primary
`SpecRemoveBases<T> : SpecBaseA, SpecBaseB` with a full specialization for
`char` keeping only `SpecBaseA`. -/
def specRemoveBases : TemplateDef :=
  { params := [.plain "T" none]
  , bases :=
      [.single (.named "SpecBaseA"), .single (.named "SpecBaseB")]
  , specs := [⟨[.named "char"], [.single (.named "SpecBaseA")]⟩] }

/-- Fixture advanced_templates.h test case 18: primary `Pair2<T, U>` with
partial specializations `Pair2<T, T>` and `Pair2<T*, U>`; none declares
bases. -/
def pair2 : TemplateDef :=
  { params := [.plain "T" none, .plain "U" none]
  , bases := []
  , specs :=
      [⟨[.param "T", .param "T"], []⟩
      , ⟨[.ptr (.param "T"), .param "U"], []⟩] }

/-- Fixture advanced_patterns.h test case 60 as an inheritance graph:
`VariadicConcrete` derives from the instantiation
`VariadicInherit<VariadicBaseA, VariadicBaseB, VariadicBaseC>`, whose base
edges are the expanded pack arguments in order. -/
def variadicConcreteGraph : List Edge :=
  [⟨"VariadicConcrete", "VariadicInherit<A,B,C>", "public", false, true⟩,
   ⟨"VariadicInherit<A,B,C>", "VariadicBaseA", "public", false, true⟩,
   ⟨"VariadicInherit<A,B,C>", "VariadicBaseB", "public", false, true⟩,
   ⟨"VariadicInherit<A,B,C>", "VariadicBaseC", "public", false, true⟩]

/-- The `int` type expression. -/
def intT : TypeExpr := .named "int"

/-- The `double` type expression. -/
def doubleT : TypeExpr := .named "double"

/-- If a lookup finds a value, the keyed pair is in the association list. -/
theorem mem_of_lookup_some {β : Type} {x : String} {u : β}
    {σ : List (String × β)} (h : σ.lookup x = some u) : (x, u) ∈ σ := by
  induction σ with
  | nil => simp [List.lookup] at h
  | cons p σ ih =>
    rw [List.lookup] at h
    by_cases hx : (x == p.1) = true
    · rw [hx] at h
      simp only [Option.some.injEq] at h
      have : x = p.1 := beq_iff_eq.mp hx
      subst this
      subst h
      exact List.mem_cons_self _ _
    · rw [eq_false_of_ne_true hx] at h
      exact List.mem_cons_of_mem _ (ih h)

/-- Matching a pattern position against itself succeeds, preserving the
invariant that every accumulated binding maps a parameter to itself. -/
theorem matchOne_self (t : TypeExpr) (σ : List (String × TypeExpr))
    (hσ : ∀ p ∈ σ, p.2 = TypeExpr.param p.1) :
    ∃ σ2, matchOne t t σ = some σ2 ∧ ∀ p ∈ σ2, p.2 = TypeExpr.param p.1 := by
  induction t generalizing σ with
  | named n => exact ⟨σ, by simp [matchOne], hσ⟩
  | param x =>
    rw [matchOne, bindParam]
    cases hl : σ.lookup x with
    | none =>
      refine ⟨(x, TypeExpr.param x) :: σ, rfl, ?_⟩
      intro p hp
      rcases List.mem_cons.mp hp with h | h
      · rw [h]
      · exact hσ p h
    | some u =>
      have hu : u = TypeExpr.param x := hσ (x, u) (mem_of_lookup_some hl)
      refine ⟨σ, ?_, hσ⟩
      rw [hu]
      simp
  | ptr t ih =>
    obtain ⟨σ2, h1, h2⟩ := ih σ hσ
    exact ⟨σ2, by rw [matchOne]; exact h1, h2⟩

/-- Matching a pattern list against itself succeeds. -/
theorem matchList_self (pat : List TypeExpr) (σ : List (String × TypeExpr))
    (hσ : ∀ p ∈ σ, p.2 = TypeExpr.param p.1) :
    ∃ σ2, matchList pat pat σ = some σ2 ∧
      ∀ p ∈ σ2, p.2 = TypeExpr.param p.1 := by
  induction pat generalizing σ with
  | nil => exact ⟨σ, rfl, hσ⟩
  | cons t ts ih =>
    obtain ⟨σ1, h1, hσ1⟩ := matchOne_self t σ hσ
    obtain ⟨σ2, h2, hσ2⟩ := ih σ1 hσ1
    refine ⟨σ2, ?_, hσ2⟩
    rw [matchList, h1, Option.some_bind]
    exact h2

/-- Every pattern unifies with itself, so a lone matching candidate is
always the most specific one. -/
theorem unifies_self (pat : List TypeExpr) : unifies pat pat = true := by
  obtain ⟨σ2, h, _⟩ := matchList_self pat [] (by intro p hp; simp at hp)
  rw [unifies, h]
  rfl

/-- Substitution with an empty binding environment is the identity. -/
theorem substType_nil (t : TypeExpr) : substType [] t = t := by
  induction t with
  | named n => rfl
  | param x => rfl
  | ptr t ih => rw [substType, ih]

/-- A concrete (pack-free) base list is returned verbatim by substitution
under empty bindings. -/
theorem substBases_nil (ts : List TypeExpr) :
    substBases [] [] (ts.map BaseSpec.single) = ts := by
  induction ts with
  | nil => rfl
  | cons t ts ih => rw [List.map_cons, substBases, substType_nil, ih]

/-- C3: `instantiate` selects a full specialization on exact pattern
match, else the most specific unifying partial specialization (an
`Ambiguous` error when no single matching candidate is most specific),
else the primary: for `Pair2` with partial specializations `<T,T>` and
`<T*,U>`, arguments `<int*,int>` select `<T*,U>`, `<int,int>` select
`<T,T>`, `<int,double>` select the primary, and `<int*,int*>` — matched
by both candidates, neither most specific — is an `Ambiguous` error. -/
theorem pair2_selection :
    instantiate pair2 [.ptr intT, intT] =
      .ok ⟨.fromPart ⟨[.ptr (.param "T"), .param "U"], []⟩, []⟩ ∧
    instantiate pair2 [intT, intT] =
      .ok ⟨.fromPart ⟨[.param "T", .param "T"], []⟩, []⟩ ∧
    instantiate pair2 [intT, doubleT] = .ok ⟨.primary, []⟩ ∧
    instantiate pair2 [.ptr intT, .ptr intT] = .error .ambiguous :=
  ⟨rfl, rfl, rfl, rfl⟩

/-- C2: when a full specialization's pattern equals the argument list the
instantiation's base edges are exactly that specialization's own base
list; the primary's bases — arbitrary here — never contribute, so a
specialization may add, remove or wholly replace the primary's bases. -/
theorem instantiate_uses_selected_bases_only (params : List TParam)
    (primBases : List BaseSpec) (specs : List TemplateSpec)
    (args ts : List TypeExpr)
    (hfind : findFull specs args = some ⟨args, ts.map BaseSpec.single⟩) :
    instantiate ⟨params, primBases, specs⟩ args =
      .ok ⟨.fromFull ⟨args, ts.map BaseSpec.single⟩, ts⟩ := by
  unfold instantiate
  rw [show (TemplateDef.mk params primBases specs).specs = specs from rfl,
    hfind]
  show Except.ok (Instantiation.mk
      (Selected.fromFull ⟨args, ts.map BaseSpec.single⟩)
      (substBases [] [] (ts.map BaseSpec.single))) =
    Except.ok (Instantiation.mk
      (Selected.fromFull ⟨args, ts.map BaseSpec.single⟩) ts)
  rw [substBases_nil]

/-- Witness for C2 on the SpecExtraBases (specialization adds a base) and
SpecRemoveBases (specialization removes a base) fixtures. -/
theorem instantiate_uses_selected_bases_only_witness :
    instantiate specExtraBases [doubleT] =
      .ok ⟨.fromFull ⟨[doubleT],
            [.single (.named "SpecBaseA"), .single (.named "SpecBaseB")]⟩,
          [.named "SpecBaseA", .named "SpecBaseB"]⟩ ∧
    instantiate specRemoveBases [.named "char"] =
      .ok ⟨.fromFull ⟨[.named "char"], [.single (.named "SpecBaseA")]⟩,
          [.named "SpecBaseA"]⟩ :=
  ⟨instantiate_uses_selected_bases_only _ _ _ _
      [.named "SpecBaseA", .named "SpecBaseB"] rfl,
   instantiate_uses_selected_bases_only _ _ _ _ [.named "SpecBaseA"] rfl⟩

/-- C10: instantiating a class template whose base-specifier list is a
parameter pack expansion (`class C : public Bases...`) yields exactly one
base edge per supplied pack argument, in the order supplied, and no base
edges for the empty pack; concretely, the VariadicConcrete fixture
deriving from `VariadicInherit<VariadicBaseA, VariadicBaseB,
VariadicBaseC>` has each of the three bases among its ancestors exactly
once. -/
theorem variadic_pack_base_edges :
    (∀ (p : String) (args : List TypeExpr),
      instantiate ⟨[.pack p], [.packExpansion p], []⟩ args =
        .ok ⟨.primary, args⟩) ∧
    (∀ b ∈ (["VariadicBaseA", "VariadicBaseB", "VariadicBaseC"] :
        List String),
      ((ancestorsOf variadicConcreteGraph "VariadicConcrete").filter
        fun e => e.name == b).length = 1) := by
  constructor
  · intro p args
    simp [instantiate, findFull, matchingParts, bindPrimary, substBases,
      List.lookup]
  · decide

/-- Witness for C10 at the concrete fixture pack `<VariadicBaseA,
VariadicBaseB, VariadicBaseC>` and at the empty pack. -/
theorem variadic_pack_base_edges_witness :
    instantiate ⟨[.pack "Bases"], [.packExpansion "Bases"], []⟩
        [.named "VariadicBaseA", .named "VariadicBaseB",
         .named "VariadicBaseC"] =
      .ok ⟨.primary,
        [.named "VariadicBaseA", .named "VariadicBaseB",
         .named "VariadicBaseC"]⟩ ∧
    instantiate ⟨[.pack "Bases"], [.packExpansion "Bases"], []⟩ [] =
      .ok ⟨.primary, []⟩ ∧
    ((ancestorsOf variadicConcreteGraph "VariadicConcrete").filter
      fun e => e.name == "VariadicBaseB").length = 1 :=
  ⟨variadic_pack_base_edges.1 "Bases" _,
   variadic_pack_base_edges.1 "Bases" [],
   variadic_pack_base_edges.2 "VariadicBaseB" (by decide)⟩

/-- C8: a documentation text whose normalized length is at most the
configured maximum (default 4000) is stored verbatim with no marker; a
longer text is stored as a body of length exactly the maximum followed by
the appended ellipsis marker. -/
theorem storeDoc_truncation (maxLen : Nat) (text : List Char) :
    maxDocLength = 4000 ∧
    (text.length ≤ maxLen → storeDoc maxLen text = text) ∧
    (maxLen < text.length →
      storeDoc maxLen text = text.take maxLen ++ truncationMarker ∧
      (text.take maxLen).length = maxLen) := by
  refine ⟨rfl, fun h => by simp [storeDoc, h], fun h => ⟨?_, ?_⟩⟩
  · simp [storeDoc, Nat.not_le.mpr h]
  · simp only [List.length_take]
    omega

/-- Witness for C8 at maximum 3: a three-character text is stored
unmodified, a four-character text is truncated to a three-character body
plus the marker. -/
theorem storeDoc_truncation_witness :
    storeDoc 3 ['a', 'b', 'c'] = ['a', 'b', 'c'] ∧
    storeDoc 3 ['a', 'b', 'c', 'd'] = ['a', 'b', 'c'] ++ truncationMarker ∧
    (['a', 'b', 'c', 'd'].take 3).length = 3 :=
  ⟨(storeDoc_truncation 3 ['a', 'b', 'c']).2.1 (by decide),
   ((storeDoc_truncation 3 ['a', 'b', 'c', 'd']).2.2 (by decide)).1,
   ((storeDoc_truncation 3 ['a', 'b', 'c', 'd']).2.2 (by decide)).2⟩

/-- C9: a function body that assigns a function to a variable, invokes the
function through that variable, and also calls the same function directly
records exactly two CallSites whose callee is that function — the
traceable indirect invocation and the direct call; the assignment itself
never produces a CallSite. -/
theorem function_pointer_call_sites (v f : String) :
    extractCalls [] [.assignFunc v f, .callVar v, .callDirect f] =
      [⟨.func f, .throughFunctionPointer⟩, ⟨.func f, .direct⟩] ∧
    ((extractCalls [] [.assignFunc v f, .callVar v, .callDirect f]).filter
      fun c => c.callee == .func f).length = 2 ∧
    (∀ env, extractCalls env [.assignFunc v f] = []) := by
  have hbody :
      extractCalls [] [.assignFunc v f, .callVar v, .callDirect f] =
        [⟨.func f, .throughFunctionPointer⟩, ⟨.func f, .direct⟩] := by
    simp [extractCalls, List.lookup]
  refine ⟨hbody, ?_, fun env => by simp [extractCalls]⟩
  rw [hbody]
  simp [List.filter]

/-- C4: a template parameter shadows an identically-named concrete class
in an enclosing scope for the whole template body — unqualified lookup in
the uninstantiated body yields the parameter and never any concrete
symbol — while instantiating the template with the concrete class as the
argument resolves the base edge to that concrete class. -/
theorem template_param_shadowing (tparams : List String)
    (scopeChain : List (List (String × String))) (name cls : String)
    (h : tparams.contains name = true) :
    lookupUnqualified tparams scopeChain name = .tparam name ∧
    (∀ s, lookupUnqualified tparams scopeChain name ≠ .symbol s) ∧
    resolveBaseName tparams [(name, .named cls)] scopeChain name =
      .resolvedTo (.named cls) ∧
    instantiate ⟨[.plain name none], [.single (.param name)], []⟩
        [.named cls] =
      .ok ⟨.primary, [.named cls]⟩ := by
  have hmem : name ∈ tparams := by simpa using h
  refine ⟨by simp [lookupUnqualified, hmem], ?_, ?_, ?_⟩
  · intro s
    simp [lookupUnqualified, hmem]
  · simp [resolveBaseName, hmem, List.lookup]
  · simp [instantiate, findFull, matchingParts, bindPrimary, substBases,
      substType, List.lookup]

/-- Witness for C4 on the name_collision.h fixture: parameter `Base` of
`WrapperCollidesWithBase` shadows the concrete `inheritance_test::Base`,
and instantiating with the concrete `Base` yields an edge to it. -/
theorem template_param_shadowing_witness :
    lookupUnqualified ["Base"]
        [[("Base", "inheritance_test::Base")]] "Base" = .tparam "Base" ∧
    resolveBaseName ["Base"] [("Base", .named "inheritance_test::Base")]
        [[("Base", "inheritance_test::Base")]] "Base" =
      .resolvedTo (.named "inheritance_test::Base") ∧
    instantiate ⟨[.plain "Base" none], [.single (.param "Base")], []⟩
        [.named "inheritance_test::Base"] =
      .ok ⟨.primary, [.named "inheritance_test::Base"]⟩ :=
  ⟨(template_param_shadowing ["Base"] [[("Base", "inheritance_test::Base")]]
      "Base" "inheritance_test::Base" (by decide)).1,
   (template_param_shadowing ["Base"] [[("Base", "inheritance_test::Base")]]
      "Base" "inheritance_test::Base" (by decide)).2.2.1,
   (template_param_shadowing ["Base"] [[("Base", "inheritance_test::Base")]]
      "Base" "inheritance_test::Base" (by decide)).2.2.2⟩

/-- A forward declaration seen after the collapsed forward-declaration
Symbol leaves the arena unchanged. -/
theorem declare_fwd_again (q k : String) (bs : List String) :
    declare [⟨q, k, false, []⟩] ⟨q, k, false, bs⟩ = [⟨q, k, false, []⟩] := by
  simp [declare]

/-- Any number of repeated forward declarations keep the single collapsed
Symbol unchanged. -/
theorem processDecls_fwd_stable (n : Nat) (q k : String) (bs : List String) :
    processDecls [⟨q, k, false, []⟩]
        (List.replicate n ⟨q, k, false, bs⟩) = [⟨q, k, false, []⟩] := by
  induction n with
  | zero => rfl
  | succ n ih =>
    rw [List.replicate_succ, processDecls, List.foldl_cons]
    have h1 : declare [⟨q, k, false, []⟩] ⟨q, k, false, bs⟩ =
        [⟨q, k, false, []⟩] := declare_fwd_again q k bs
    rw [h1]
    exact ih

/-- C6: for every qualified name and kind, any number of forward
declarations followed by one definition event produce exactly one Symbol
in the arena; its isDefinition flag is true (OR'd across events) and its
base edges come from the definition-bearing event alone, whatever base
lists the forward declarations carried. -/
theorem forward_decls_collapse (n : Nat) (q k : String)
    (fwdBases defBases : List String) :
    processDecls []
        (List.replicate n ⟨q, k, false, fwdBases⟩ ++
          [⟨q, k, true, defBases⟩]) =
      [⟨q, k, true, defBases⟩] := by
  rw [processDecls, List.foldl_append]
  have hfwd : List.foldl declare []
      (List.replicate n ⟨q, k, false, fwdBases⟩) =
      if n = 0 then [] else [⟨q, k, false, []⟩] := by
    cases n with
    | zero => rfl
    | succ m =>
      rw [List.replicate_succ, List.foldl_cons]
      have h0 : declare [] ⟨q, k, false, fwdBases⟩ = [⟨q, k, false, []⟩] := by
        simp [declare]
      rw [h0]
      simpa [processDecls] using processDecls_fwd_stable m q k fwdBases
  rw [hfwd]
  cases n with
  | zero => simp [declare]
  | succ m => simp [declare]

/-- Every name in an alias chain links to something, so it is a key of the
alias definition list. -/
theorem chain_mem_keys (defs : List (String × String)) (t : String) :
    ∀ (chain : List String), isAliasChain defs chain t →
      ∀ x ∈ chain, x ∈ defs.map Prod.fst := by
  intro chain
  induction chain with
  | nil => intro _ x hx; simp at hx
  | cons a rest ih =>
    intro hc x hx
    rcases List.mem_cons.mp hx with rfl | hx2
    · obtain ⟨y, hy⟩ : ∃ y, defs.lookup x = some y := ⟨_, hc.1⟩
      exact List.mem_map.mpr ⟨(x, y), mem_of_lookup_some hy, rfl⟩
    · exact ih hc.2 x hx2

/-- One unfolding step of the alias walk at positive fuel. -/
theorem resolveAliasAux_succ (defs : List (String × String)) (f : Nat)
    (seen : List String) (name : String) :
    resolveAliasAux defs (f + 1) seen name =
      if name ∈ seen then .unresolvedCyclic
      else
        match defs.lookup name with
        | none => .concrete name
        | some tgt => resolveAliasAux defs f (name :: seen) tgt := rfl

/-- An acyclic alias chain walks to its final concrete target, for any
large-enough fuel and any visited set disjoint from the remaining names. -/
theorem resolveAliasAux_acyclic (defs : List (String × String)) (t : String) :
    ∀ (rest : List String) (a : String) (seen : List String) (fuel : Nat),
      isAliasChain defs (a :: rest) t →
      (a :: rest).Nodup →
      t ∉ a :: rest →
      (∀ x ∈ a :: rest, x ∉ seen) →
      t ∉ seen →
      rest.length + 2 ≤ fuel →
      resolveAliasAux defs fuel seen a = .concrete t := by
  intro rest
  induction rest with
  | nil =>
    intro a seen fuel hc hnd hts hseen htseen hfuel
    obtain ⟨f1, rfl⟩ : ∃ f1, fuel = f1 + 1 := ⟨fuel - 1, by omega⟩
    obtain ⟨f2, rfl⟩ : ∃ f2, f1 = f2 + 1 := ⟨f1 - 1, by omega⟩
    rw [resolveAliasAux_succ, if_neg (hseen a (by simp)), hc.1]
    show resolveAliasAux defs (f2 + 1) (a :: seen) t = .concrete t
    have htn : t ∉ a :: seen := by
      simp only [List.mem_cons]
      push_neg
      exact ⟨fun h => hts (by simp [h]), htseen⟩
    rw [resolveAliasAux_succ, if_neg htn, hc.2]
  | cons b rest ih =>
    intro a seen fuel hc hnd hts hseen htseen hfuel
    obtain ⟨f1, rfl⟩ : ∃ f1, fuel = f1 + 1 := ⟨fuel - 1, by omega⟩
    rw [resolveAliasAux_succ, if_neg (hseen a (by simp)), hc.1]
    show resolveAliasAux defs f1 (a :: seen) b = .concrete t
    apply ih b (a :: seen) f1 hc.2 (List.Nodup.of_cons hnd)
      (fun h => hts (List.mem_cons_of_mem _ h))
      ?_ ?_ (by simp only [List.length_cons] at hfuel; omega)
    · intro x hx
      simp only [List.mem_cons]
      push_neg
      refine ⟨?_, hseen x (List.mem_cons_of_mem _ hx)⟩
      intro hxa
      exact (List.nodup_cons.mp hnd).1 (hxa ▸ hx)
    · simp only [List.mem_cons]
      push_neg
      exact ⟨fun h => hts (by simp [h]), htseen⟩

/-- A walk that stays inside a set of names closed under alias lookup can
never reach a concrete target: it freezes at `Unresolved(CyclicAlias)` by
the revisit check or by the chain-length bound. -/
theorem resolveAliasAux_cyclic (defs : List (String × String))
    (cyc : List String)
    (hclosed : ∀ x ∈ cyc, ∃ y ∈ cyc, defs.lookup x = some y) :
    ∀ (fuel : Nat) (seen : List String) (a : String), a ∈ cyc →
      resolveAliasAux defs fuel seen a = .unresolvedCyclic := by
  intro fuel
  induction fuel with
  | zero => intro seen a _; rfl
  | succ f ih =>
    intro seen a ha
    rw [resolveAliasAux]
    by_cases hs : a ∈ seen
    · rw [if_pos hs]
    · rw [if_neg hs]
      obtain ⟨y, hy, hl⟩ := hclosed a ha
      rw [hl]
      exact ih (a :: seen) y hy

/-- C5: for every acyclic alias chain, `resolveAlias` on the chain's head
returns the final concrete target; for every chain whose resolution
revisits a name of the current chain (or would exceed the chain-length
bound), `resolveAlias` returns `Unresolved(CyclicAlias)` — a frozen value,
not an exception or divergence. -/
theorem resolveAlias_chain_behavior :
    (∀ (defs : List (String × String)) (a : String) (rest : List String)
        (t : String),
      isAliasChain defs (a :: rest) t → (a :: rest).Nodup →
      t ∉ a :: rest →
      resolveAlias defs a = .concrete t) ∧
    (∀ (defs : List (String × String)) (cyc : List String) (a : String),
      a ∈ cyc → (∀ x ∈ cyc, ∃ y ∈ cyc, defs.lookup x = some y) →
      resolveAlias defs a = .unresolvedCyclic) := by
  constructor
  · intro defs a rest t hc hnd hts
    have hkeys := chain_mem_keys defs t (a :: rest) hc
    have hlen : (a :: rest).length ≤ defs.length := by
      have hsub : a :: rest ⊆ defs.map Prod.fst := fun x hx => hkeys x hx
      have := (List.subperm_of_subset hnd hsub).length_le
      simpa using this
    exact resolveAliasAux_acyclic defs t rest a [] (defs.length + 1) hc hnd
      hts (by simp) (by simp) (by simp at hlen; omega)
  · intro defs cyc a ha hclosed
    exact resolveAliasAux_cyclic defs cyc hclosed (defs.length + 1) [] a ha

/-- Witness for C5: the alias_inheritance.h chain `ChainAlias3 →
ChainAlias2 → ChainAlias1 → ChainBase` resolves to `ChainBase`, and a
two-alias cycle freezes at `Unresolved(CyclicAlias)`. -/
theorem resolveAlias_chain_behavior_witness :
    resolveAlias
        [("ChainAlias1", "ChainBase"), ("ChainAlias2", "ChainAlias1"),
         ("ChainAlias3", "ChainAlias2")] "ChainAlias3" =
      .concrete "ChainBase" ∧
    resolveAlias [("CycA", "CycB"), ("CycB", "CycA")] "CycA" =
      .unresolvedCyclic :=
  ⟨resolveAlias_chain_behavior.1
      [("ChainAlias1", "ChainBase"), ("ChainAlias2", "ChainAlias1"),
       ("ChainAlias3", "ChainAlias2")]
      "ChainAlias3" ["ChainAlias2", "ChainAlias1"] "ChainBase"
      (by simp [isAliasChain, List.lookup]) (by decide) (by decide),
   resolveAlias_chain_behavior.2 [("CycA", "CycB"), ("CycB", "CycA")]
      ["CycA", "CycB"] "CycA" (by decide)
      (by
        intro x hx
        rcases List.mem_cons.mp hx with rfl | hx2
        · exact ⟨"CycB", by decide, by decide⟩
        · rcases List.mem_cons.mp hx2 with rfl | hx3
          · exact ⟨"CycA", by decide, by decide⟩
          · simp at hx3)⟩

/-- C1: in a non-virtual diamond (`D : L, R` with `L, R : Top`
non-virtually), `ancestors(D)` contains `Top` exactly twice, both entries
flagged `ambiguousAccess = true`; with `L, R : Top` virtual, `ancestors(D)`
contains `Top` exactly once. -/
theorem diamond_ancestors (d l r top : String)
    (hdl : d ≠ l) (hdr : d ≠ r) (hdt : d ≠ top) (hlr : l ≠ r)
    (hlt : l ≠ top) (hrt : r ≠ top) :
    (((ancestorsOf (diamondGraph d l r top false) d).filter
        fun e => e.name == top).length = 2 ∧
      ∀ e ∈ ancestorsOf (diamondGraph d l r top false) d,
        e.name = top → e.ambiguousAccess = true) ∧
    ((ancestorsOf (diamondGraph d l r top true) d).filter
        fun e => e.name == top).length = 1 := by
  simp [ancestorsOf, ancestors, ancestorPaths, diamondGraph,
    resolvedOut, dedupVirtualBases, List.filter, List.flatMap,
    beq_eq_decide, hdl, hdr, hdt, hlr, hlt, hrt,
    Ne.symm hdl, Ne.symm hdr, Ne.symm hdt, Ne.symm hlr, Ne.symm hlt,
    Ne.symm hrt]

/-- Witness for C1 on the virtual_inheritance.h fixture names
(test cases 9 and 10). -/
theorem diamond_ancestors_witness :
    ((ancestorsOf (diamondGraph "DiamondBottomNV" "DiamondLeftNV"
        "DiamondRightNV" "DiamondTop" false) "DiamondBottomNV").filter
      fun e => e.name == "DiamondTop").length = 2 ∧
    ((ancestorsOf (diamondGraph "DiamondBottomV" "DiamondLeftV"
        "DiamondRightV" "DiamondTop" true) "DiamondBottomV").filter
      fun e => e.name == "DiamondTop").length = 1 :=
  ⟨(diamond_ancestors "DiamondBottomNV" "DiamondLeftNV" "DiamondRightNV"
      "DiamondTop" (by decide) (by decide) (by decide) (by decide)
      (by decide) (by decide)).1.1,
   (diamond_ancestors "DiamondBottomV" "DiamondLeftV" "DiamondRightV"
      "DiamondTop" (by decide) (by decide) (by decide) (by decide)
      (by decide) (by decide)).2⟩

/-- Unfold a resolved step to its witnessing edge. -/
theorem rstep_iff (g : List Edge) (a b : String) :
    rstep g a b = true ↔
      ∃ e ∈ g, e.resolved = true ∧ e.derived = a ∧ e.base = b := by
  simp [rstep, List.any_eq_true, Bool.and_eq_true, beq_iff_eq, and_assoc]

/-- A step in a graph extended by one edge is a step in the old graph or
exactly the new edge's step. -/
theorem rstep_append (g : List Edge) (e0 : Edge) (a b : String) :
    rstep (g ++ [e0]) a b = true ↔
      rstep g a b = true ∨
        (e0.resolved = true ∧ e0.derived = a ∧ e0.base = b) := by
  simp only [rstep_iff, List.mem_append, List.mem_singleton]
  constructor
  · rintro ⟨e, he | rfl, h⟩
    · exact Or.inl ⟨e, he, h⟩
    · exact Or.inr h
  · rintro (⟨e, he, h⟩ | h)
    · exact ⟨e, Or.inl he, h⟩
    · exact ⟨e0, Or.inr rfl, h⟩

/-- An unresolved edge adds no resolved step. -/
theorem rstep_append_unresolved (g : List Edge) (e0 : Edge)
    (h : e0.resolved = false) (a b : String) :
    rstep (g ++ [e0]) a b = rstep g a b := by
  have hiff : rstep (g ++ [e0]) a b = true ↔ rstep g a b = true := by
    rw [rstep_append]
    constructor
    · rintro (h1 | ⟨hr, _⟩)
      · exact h1
      · rw [h] at hr
        cases hr
    · exact Or.inl
  cases hx : rstep (g ++ [e0]) a b with
  | true => exact (hiff.mp hx).symm
  | false =>
    cases hy : rstep g a b with
    | false => rfl
    | true => exact absurd (hiff.mpr hy) (by simp [hx])

/-- Graphs with the same resolved steps carry the same paths. -/
theorem chainB_congr (g1 g2 : List Edge)
    (h : ∀ a b, rstep g1 a b = rstep g2 a b) :
    ∀ (l : List String) (a b : String), chainB g1 a l b = chainB g2 a l b := by
  intro l
  induction l with
  | nil => intro a b; rw [chainB, chainB, h]
  | cons c l ih => intro a b; rw [chainB, chainB, h, ih]

/-- Split a path at a named intermediate node. -/
theorem chainB_split (g : List Edge) :
    ∀ (l1 : List String) (x c : String) (l2 : List String) (y : String),
      chainB g x (l1 ++ c :: l2) y = true →
      chainB g x l1 c = true ∧ chainB g c l2 y = true := by
  intro l1
  induction l1 with
  | nil =>
    intro x c l2 y h
    rw [List.nil_append, chainB, Bool.and_eq_true] at h
    exact ⟨h.1, h.2⟩
  | cons a l1 ih =>
    intro x c l2 y h
    rw [List.cons_append, chainB, Bool.and_eq_true] at h
    obtain ⟨h1, h2⟩ := ih a c l2 y h.2
    exact ⟨by rw [chainB, h.1, h1]; rfl, h2⟩

/-- Join two paths at their shared endpoint. -/
theorem chainB_join (g : List Edge) :
    ∀ (l1 : List String) (x c : String) (l2 : List String) (y : String),
      chainB g x l1 c = true → chainB g c l2 y = true →
      chainB g x (l1 ++ c :: l2) y = true := by
  intro l1
  induction l1 with
  | nil =>
    intro x c l2 y h1 h2
    have h1s : rstep g x c = true := h1
    rw [List.nil_append, chainB, h1s, h2]
    rfl
  | cons a l1 ih =>
    intro x c l2 y h1 h2
    rw [chainB, Bool.and_eq_true] at h1
    rw [List.cons_append, chainB, h1.1, ih a c l2 y h1.2 h2]
    rfl

/-- A list that is not duplicate-free splits around a repeated element. -/
theorem exists_dup_split {α : Type} (l : List α) (h : ¬ l.Nodup) :
    ∃ (l1 : List α) (c : α) (l2 l3 : List α),
      l = l1 ++ c :: l2 ++ c :: l3 := by
  induction l with
  | nil => exact absurd List.nodup_nil h
  | cons a t ih =>
    by_cases ha : a ∈ t
    · obtain ⟨l2, l3, rfl⟩ := List.append_of_mem ha
      exact ⟨[], a, l2, l3, rfl⟩
    · have ht : ¬ t.Nodup := fun hn => h (List.nodup_cons.mpr ⟨ha, hn⟩)
      obtain ⟨l1, c, l2, l3, rfl⟩ := ih ht
      exact ⟨a :: l1, c, l2, l3, rfl⟩

/-- Any path shortens to a duplicate-free path with the same endpoints. -/
theorem chainB_shorten (g : List Edge) :
    ∀ (n : Nat) (l : List String) (x y : String), l.length ≤ n →
      chainB g x l y = true →
      ∃ l2, chainB g x l2 y = true ∧ l2.Nodup ∧ l2.length ≤ l.length := by
  intro n
  induction n with
  | zero =>
    intro l x y hlen h
    have : l = [] := List.eq_nil_of_length_eq_zero (Nat.le_zero.mp hlen)
    subst this
    exact ⟨[], h, List.nodup_nil, Nat.le_refl 0⟩
  | succ n ih =>
    intro l x y hlen h
    by_cases hnd : l.Nodup
    · exact ⟨l, h, hnd, Nat.le_refl _⟩
    · obtain ⟨l1, c, l2, l3, rfl⟩ := exists_dup_split l hnd
      obtain ⟨h1, h23⟩ := chainB_split g l1 x c (l2 ++ c :: l3) y
        (by simpa only [List.cons_append, List.append_assoc] using h)
      obtain ⟨_, h3⟩ := chainB_split g l2 c c l3 y h23
      have hshort : chainB g x (l1 ++ c :: l3) y = true :=
        chainB_join g l1 x c l3 y h1 h3
      have hlen2 : (l1 ++ c :: l3).length ≤ n := by
        simp only [List.length_append, List.length_cons] at hlen ⊢
        omega
      obtain ⟨l4, h4, hnd4, hlen4⟩ := ih (l1 ++ c :: l3) x y hlen2 hshort
      refine ⟨l4, h4, hnd4, ?_⟩
      simp only [List.length_append, List.length_cons] at hlen4 ⊢
      omega

/-- Every intermediate node of a path is the base of some edge. -/
theorem chainB_mem_bases (g : List Edge) :
    ∀ (l : List String) (x y : String), chainB g x l y = true →
      ∀ c ∈ l, c ∈ g.map Edge.base := by
  intro l
  induction l with
  | nil => intro x y _ c hc; simp at hc
  | cons a t ih =>
    intro x y h c hc
    rw [chainB, Bool.and_eq_true] at h
    rcases List.mem_cons.mp hc with rfl | hct
    · obtain ⟨e, he, _, _, hbase⟩ := (rstep_iff g x c).mp h.1
      exact List.mem_map.mpr ⟨e, he, hbase⟩
    · exact ih a y h.2 c hct

/-- A duplicate-free path has at most one intermediate node per edge. -/
theorem nodup_chain_length_le (g : List Edge) (l : List String)
    (x y : String) (h : chainB g x l y = true) (hnd : l.Nodup) :
    l.length ≤ g.length := by
  have hsub : l ⊆ g.map Edge.base := fun c hc =>
    chainB_mem_bases g l x y h c hc
  have := (List.subperm_of_subset hnd hsub).length_le
  simpa using this

/-- A path witnesses bounded reachability at fuel one more than its
length. -/
theorem chainB_reachableB (g : List Edge) :
    ∀ (l : List String) (a b : String), chainB g a l b = true →
      reachableB g (l.length + 1) a b = true := by
  intro l
  induction l with
  | nil =>
    intro a b h
    have hs : rstep g a b = true := h
    obtain ⟨e, he, hr, hd, hb⟩ := (rstep_iff g a b).mp hs
    rw [reachableB]
    refine List.any_eq_true.mpr ⟨e, ?_, ?_⟩
    · rw [resolvedOut, List.mem_filter]
      exact ⟨he, by rw [hr, hd]; simp⟩
    · rw [hb]
      simp
  | cons c t ih =>
    intro a b h
    rw [chainB, Bool.and_eq_true] at h
    obtain ⟨e, he, hr, hd, hb⟩ := (rstep_iff g a c).mp h.1
    rw [List.length_cons, reachableB]
    refine List.any_eq_true.mpr ⟨e, ?_, ?_⟩
    · rw [resolvedOut, List.mem_filter]
      exact ⟨he, by rw [hr, hd]; simp⟩
    · rw [hb, ih c b h.2]
      simp

/-- Bounded reachability is monotone in the fuel. -/
theorem reachableB_mono (g : List Edge) :
    ∀ (f f2 : Nat) (a b : String), f ≤ f2 → reachableB g f a b = true →
      reachableB g f2 a b = true := by
  intro f
  induction f with
  | zero => intro f2 a b _ h; cases h
  | succ f ih =>
    intro f2 a b hle h
    obtain ⟨f3, rfl⟩ : ∃ f3, f2 = f3 + 1 := ⟨f2 - 1, by omega⟩
    rw [reachableB] at h ⊢
    obtain ⟨e, he, hp⟩ := List.any_eq_true.mp h
    refine List.any_eq_true.mpr ⟨e, he, ?_⟩
    rcases Bool.or_eq_true_iff.mp hp with h1 | h2
    · rw [h1]; rfl
    · rw [ih f3 e.base b (by omega) h2]
      simp

/-- Reflexive reachability composes. -/
theorem reachP_trans (g : List Edge) (x y z : String)
    (h1 : reachP g x y) (h2 : reachP g y z) : reachP g x z := by
  rcases h1 with rfl | ⟨l1, hl1⟩
  · exact h2
  · rcases h2 with rfl | ⟨l2, hl2⟩
    · exact Or.inr ⟨l1, hl1⟩
    · exact Or.inr ⟨l1 ++ y :: l2, chainB_join g l1 x y l2 z hl1 hl2⟩

/-- A nontrivial reflexive reachability is detected by the bounded search
at fuel one past the graph size. -/
theorem reachP_reachableB (g : List Edge) (x y : String)
    (h : reachP g x y) (hne : x ≠ y) :
    reachableB g (g.length + 1) x y = true := by
  rcases h with rfl | ⟨l, hl⟩
  · exact absurd rfl hne
  · obtain ⟨l2, h2, hnd, _⟩ :=
      chainB_shorten g l.length l x y (Nat.le_refl _) hl
    have hlen := nodup_chain_length_le g l2 x y h2 hnd
    exact reachableB_mono g (l2.length + 1) (g.length + 1) x y (by omega)
      (chainB_reachableB g l2 x y h2)

/-- Any path in a graph extended by a resolved edge `d → b` is a path of
the old graph, or passes through the new edge — and then `d` is reachable
from the path's start and the path's end is reachable from `b`, in the old
graph. -/
theorem chainB_append_new (g : List Edge) (d b acc : String) (v : Bool) :
    ∀ (l : List String) (x y : String),
      chainB (g ++ [⟨d, b, acc, v, true⟩]) x l y = true →
      chainB g x l y = true ∨ (reachP g x d ∧ reachP g b y) := by
  intro l
  induction l with
  | nil =>
    intro x y h
    have hs : rstep (g ++ [⟨d, b, acc, v, true⟩]) x y = true := h
    rcases (rstep_append g _ x y).mp hs with h1 | ⟨_, hd, hb⟩
    · exact Or.inl h1
    · exact Or.inr ⟨Or.inl hd.symm, Or.inl hb⟩
  | cons c t ih =>
    intro x y h
    rw [chainB, Bool.and_eq_true] at h
    rcases ih c y h.2 with h2 | ⟨hcd, hby⟩
    · rcases (rstep_append g _ x c).mp h.1 with h1 | ⟨_, hd, hb⟩
      · exact Or.inl (by rw [chainB, h1, h2]; rfl)
      · refine Or.inr ⟨Or.inl hd.symm, Or.inr ⟨t, ?_⟩⟩
        have hb2 : b = c := hb
        rw [hb2]
        exact h2
    · rcases (rstep_append g _ x c).mp h.1 with h1 | ⟨_, hd, _⟩
      · refine Or.inr ⟨?_, hby⟩
        rcases hcd with rfl | ⟨lp, hlp⟩
        · exact Or.inr ⟨[], h1⟩
        · exact Or.inr ⟨c :: lp, by rw [chainB, h1, hlp]; rfl⟩
      · exact Or.inr ⟨Or.inl hd.symm, hby⟩

/-- The empty graph is acyclic. -/
theorem Acyclic_nil : Acyclic [] := by
  intro a l
  cases l <;> rfl

/-- `addBase` preserves acyclicity of the resolved restriction: a
cycle-closing edge is appended unresolved, and an edge passing the check
cannot close a cycle. -/
theorem addBase_acyclic (g : List Edge) (d b acc : String) (v : Bool)
    (hg : Acyclic g) : Acyclic (addBase g d b acc v) := by
  rw [addBase]
  by_cases hc : closesCycle g d b = true
  · rw [if_pos hc]
    intro a l
    rw [chainB_congr _ g (rstep_append_unresolved g _ rfl) l a a]
    exact hg a l
  · rw [if_neg hc]
    intro a l
    rcases hcyc : chainB (g ++ [⟨d, b, acc, v, true⟩]) a l a with _ | _
    · exact hcyc
    · exfalso
      rcases chainB_append_new g d b acc v l a a hcyc with h1 | ⟨had, hba⟩
      · rw [hg a l] at h1
        cases h1
      · have hclosed : closesCycle g d b = false :=
          Bool.not_eq_true _ ▸ eq_false_of_ne_true hc
        obtain ⟨hbd, hreach⟩ := Bool.or_eq_false_iff.mp
          (by rw [← closesCycle]; exact hclosed)
        have hne : b ≠ d := beq_eq_false_iff_ne.mp hbd
        have : reachableB g (g.length + 1) b d = true :=
          reachP_reachableB g b d (reachP_trans g b a d hba had) hne
        rw [hreach] at this
        cases this

/-- Folding `addBase` over any operation sequence preserves acyclicity. -/
theorem foldl_addBase_acyclic (ops : List BaseOp) :
    ∀ g, Acyclic g →
      Acyclic (ops.foldl (fun g2 op =>
        addBase g2 op.derived op.base op.access op.isVirtual) g) := by
  induction ops with
  | nil => intro g hg; exact hg
  | cons op ops ih =>
    intro g hg
    rw [List.foldl_cons]
    exact ih _ (addBase_acyclic g op.derived op.base op.access op.isVirtual hg)

/-- An unresolved edge is invisible to `resolvedOut`. -/
theorem resolvedOut_append_unresolved (g : List Edge) (e0 : Edge)
    (h : e0.resolved = false) (s : String) :
    resolvedOut (g ++ [e0]) s = resolvedOut g s := by
  rw [resolvedOut, resolvedOut, List.filter_append]
  have h1 : List.filter (fun e => e.resolved && e.derived == s) [e0] = [] := by
    simp [List.filter, h]
  rw [h1, List.append_nil]

/-- An unresolved edge contributes to no ancestor path, at any fuel. -/
theorem ancestorPaths_append_unresolved (g : List Edge) (e0 : Edge)
    (h : e0.resolved = false) :
    ∀ (fuel : Nat) (s : String),
      ancestorPaths (g ++ [e0]) fuel s = ancestorPaths g fuel s := by
  intro fuel
  induction fuel with
  | zero => intro s; rfl
  | succ f ih =>
    intro s
    rw [ancestorPaths, ancestorPaths, resolvedOut_append_unresolved g e0 h]
    congr 1
    funext e
    rw [ih e.base]

/-- An unresolved edge changes no bounded-reachability answer. -/
theorem reachableB_append_unresolved (g : List Edge) (e0 : Edge)
    (h : e0.resolved = false) :
    ∀ (fuel : Nat) (a b : String),
      reachableB (g ++ [e0]) fuel a b = reachableB g fuel a b := by
  intro fuel
  induction fuel with
  | zero => intro a b; rfl
  | succ f ih =>
    intro a b
    rw [reachableB, reachableB, resolvedOut_append_unresolved g e0 h]
    congr 1
    funext e
    rw [ih e.base b]

/-- An unresolved edge changes no `ancestors` answer, at any fuel. -/
theorem ancestors_append_unresolved (g : List Edge) (e0 : Edge)
    (h : e0.resolved = false) (fuel : Nat) (s : String) :
    ancestors (g ++ [e0]) fuel s = ancestors g fuel s := by
  rw [ancestors, ancestors, ancestorPaths_append_unresolved g e0 h]

/-- Applying one more operation folds it onto the accumulated graph. -/
theorem applyOps_append_one (ops : List BaseOp) (op : BaseOp) :
    applyOps (ops ++ [op]) =
      addBase (applyOps ops) op.derived op.base op.access op.isVirtual := by
  rw [applyOps, applyOps, List.foldl_append, List.foldl_cons, List.foldl_nil]

/-- C7: after every sequence of `addBase` operations the graph restricted
to resolved edges is acyclic; an operation that would close a cycle
appends its edge marked `Unresolved(cycle)`, leaving every ancestors and
reachability computation — hence every other edge — exactly as before. -/
theorem addBase_cycle_safety (ops : List BaseOp) :
    Acyclic (applyOps ops) ∧
    ∀ op, closesCycle (applyOps ops) op.derived op.base = true →
      applyOps (ops ++ [op]) =
        applyOps ops ++
          [⟨op.derived, op.base, op.access, op.isVirtual, false⟩] ∧
      (∀ fuel s, ancestors (applyOps (ops ++ [op])) fuel s =
        ancestors (applyOps ops) fuel s) ∧
      (∀ fuel x y, reachableB (applyOps (ops ++ [op])) fuel x y =
        reachableB (applyOps ops) fuel x y) := by
  constructor
  · rw [applyOps]
    exact foldl_addBase_acyclic ops [] Acyclic_nil
  · intro op hc
    have he : applyOps (ops ++ [op]) =
        applyOps ops ++
          [⟨op.derived, op.base, op.access, op.isVirtual, false⟩] := by
      rw [applyOps_append_one, addBase, if_pos hc]
    refine ⟨he, ?_, ?_⟩
    · intro fuel s
      rw [he, ancestors_append_unresolved _ _ rfl fuel s]
    · intro fuel x y
      rw [he, reachableB_append_unresolved _ _ rfl fuel x y]

/-- Witness for C7: after `A : B`, the reversed edge `B : A` closes a
cycle, is stored unresolved, and leaves ancestry untouched. -/
theorem addBase_cycle_safety_witness :
    Acyclic (applyOps [⟨"A", "B", "public", false⟩]) ∧
    applyOps
        ([⟨"A", "B", "public", false⟩] ++ [⟨"B", "A", "public", false⟩]) =
      applyOps [⟨"A", "B", "public", false⟩] ++
        [⟨"B", "A", "public", false, false⟩] ∧
    ancestors
        (applyOps
          ([⟨"A", "B", "public", false⟩] ++ [⟨"B", "A", "public", false⟩]))
        3 "B" =
      ancestors (applyOps [⟨"A", "B", "public", false⟩]) 3 "B" :=
  have h := addBase_cycle_safety [⟨"A", "B", "public", false⟩]
  have h2 := h.2 ⟨"B", "A", "public", false⟩ (by decide)
  ⟨h.1, h2.1, h2.2.1 3 "B"⟩
